import Mathlib

/-!
Shallow embedding of zed's `crates/command_palette/src/command_palette.rs`:
the command ranking pipeline (`update_matches`), the confirm/selection
protocol (`confirm`), catalog construction (`CommandPalette::new`) and the
display-name normalizer (`humanize_action_name`).

External collaborators (the fuzzy matcher `fuzzy::match_strings`, the
registered interceptor, `release_channel::parse_zed_link`) are opaque in the
source and are taken as parameters here.  Rust `char::is_uppercase` /
`char::to_lowercase` are modelled by Lean's ASCII `Char.isUpper` /
`Char.toLower`; action names are ASCII.  A Rust index panic is modelled as
`none`.
-/

namespace Zed

/-- Identity of a Rust action type (`Action::type_id()`). `external i` stands
for the `TypeId` of an ordinary registered action; `openZedUrl` is the
distinguished `TypeId` of the `zed_actions::OpenZedUrl` action synthesized by
the dev-channel link check. -/
inductive ActionType where
  | external (id : Nat)
  | openZedUrl
deriving DecidableEq

/-- A `Box<dyn Action>`: an opaque invocable value exposing `name()` (the raw
namespaced action name) and `type_id()`.  `payload` models data the concrete
action value carries (the `url` field of `OpenZedUrl`). -/
structure Action where
  name : String
  typeId : ActionType
  payload : String := ""
deriving DecidableEq

/-- `struct Command { name: String, action: Box<dyn Action> }`. -/
structure Command where
  name : String
  action : Action
deriving DecidableEq

/-- `struct HitCounts(HashMap<String, usize>)`; lookup is `HashMap::get`,
`none` meaning the key is absent. -/
abbrev HitCounts := String → Option Nat

/-- The hit count of a display name as the spec reads it: an absent key
counts as zero. -/
def hitCount (h : HitCounts) (name : String) : Nat :=
  (h name).getD 0

/-- `fuzzy::StringMatchCandidate` as built in `update_matches`. -/
structure StringMatchCandidate where
  id : Nat
  string : String
  charBag : List Char
deriving DecidableEq

/-- `fuzzy::StringMatch`.  The score is an `f64` produced by the opaque fuzzy
matcher; the palette itself only ever writes the constant `0.0`, so scores
are modelled as rationals. -/
structure StringMatch where
  candidate_id : Nat
  string : String
  positions : List Nat
  score : Rat
deriving DecidableEq

/-- `struct CommandInterceptResult { action, string, positions }`. -/
structure CommandInterceptResult where
  action : Action
  string : String
  positions : List Nat

/-- `release_channel::ReleaseChannel`. -/
inductive ReleaseChannel where
  | dev
  | nightly
  | preview
  | stable
deriving DecidableEq

/-! ## Display-name normalization (`humanize_action_name`, lines 355-377) -/

/-- One step of `humanize_action_name`'s character loop.  `acc` is the output
built so far in reverse, so `acc.head?` is what `result.ends_with(c)` looks
at. -/
def humanizeStep (acc : List Char) (c : Char) : List Char :=
  if c = ':' then
    if acc.head? = some ':' then ' ' :: acc else ':' :: acc
  else if c = '_' then
    ' ' :: acc
  else if c.isUpper then
    if acc.head? = some ' ' then c.toLower :: acc else c.toLower :: ' ' :: acc
  else
    c :: acc

/-- `humanize_action_name`: fold the per-character rewriting over the raw
name. -/
def humanize_action_name (name : String) : String :=
  ⟨(name.data.foldl humanizeStep []).reverse⟩

/-! ## Catalog construction (`CommandPalette::new`, lines 49-85) -/

/-- Rust `str::split("::")` on a character list: splits at every
non-overlapping occurrence of `"::"`, leftmost first; always yields at least
one (possibly empty) segment. -/
def splitColons : List Char → List (List Char)
  | [] => [[]]
  | ':' :: ':' :: rest => [] :: splitColons rest
  | c :: rest =>
    match splitColons rest with
    | [] => [[c]]
    | seg :: segs => (c :: seg) :: segs

/-- The namespace computed in `CommandPalette::new`:
`name.split("::").next().unwrap_or("malformed action name")`. -/
def namespaceOf (name : String) : String :=
  match (splitColons name.data).head? with
  | some seg => ⟨seg⟩
  | none => "malformed action name"

/-- `copilot::CommandPaletteFilter`, as used by `CommandPalette::new`. -/
structure CommandPaletteFilter where
  hidden_namespaces : List String
  hidden_action_types : List ActionType

/-- Catalog construction in `CommandPalette::new`: drop actions hidden by the
filter, humanize the kept names. -/
def commandPaletteNew (availableActions : List Action)
    (filter : Option CommandPaletteFilter) : List Command :=
  availableActions.filterMap fun action =>
    let ns := namespaceOf action.name
    let hidden : Bool :=
      match filter with
      | some f =>
        decide (ns ∈ f.hidden_namespaces) || decide (action.typeId ∈ f.hidden_action_types)
      | none => false
    if hidden then none
    else some { name := humanize_action_name action.name, action := action }

/-! ## The history sort (`update_matches`, lines 192-200) -/

/-- Strict `<` of Rust's derived `Ord` on `Option<usize>`:
`None < Some _` and `Some a < Some b ↔ a < b`. -/
def optLt : Option Nat → Option Nat → Bool
  | none, some _ => true
  | some a, some b => decide (a < b)
  | _, _ => false

/-- Rust's lexicographic `Ord` on strings, on the character list (UTF-8 byte
order coincides with code-point order). -/
def charsLe : List Char → List Char → Bool
  | [], _ => true
  | _ :: _, [] => false
  | a :: xs, b :: ys => if a = b then charsLe xs ys else decide (a < b)

/-- The comparator of
`commands.sort_by_key(|c| (Reverse(hit_counts.0.get(&c.name).cloned()), c.name.clone()))`:
lexicographic on the pair (reversed optional hit count, name). -/
def commandLe (h : HitCounts) (a b : Command) : Bool :=
  optLt (h b.name) (h a.name) ||
    (decide (h a.name = h b.name) && charsLe a.name.data b.name.data)

/-- `Vec::sort_by_key` is a stable sort; a stable sort is extensionally
determined by its comparator, embedded here as stable insertion sort over
`commandLe`. -/
def sortCommands (h : HitCounts) (cmds : List Command) : List Command :=
  List.insertionSort (fun a b => commandLe h a b = true) cmds

/-! ## The ranking pipeline (`update_matches`, lines 184-294) -/

/-- The `candidates` vector built in `update_matches` (lines 202-210). -/
def mkCandidates (commands : List Command) : List StringMatchCandidate :=
  commands.enum.map fun p =>
    { id := p.1, string := p.2.name, charBag := p.2.name.data }

/-- The empty-query browse-all branch (lines 211-221): one `StringMatch` per
candidate, score `0.0`, no positions, `candidate_id` the enumeration index. -/
def emptyQueryMatches (candidates : List StringMatchCandidate) : List StringMatch :=
  candidates.enum.map fun p =>
    { candidate_id := p.1, string := p.2.string, positions := [], score := 0 }

/-- The `OpenZedUrl { url }` action boxed in the dev-channel branch. -/
def openZedUrlAction (url : String) : Action :=
  { name := "zed_actions::OpenZedUrl", typeId := .openZedUrl, payload := url }

/-- Interceptor result selection (lines 234-251): the registered
interceptor's output for `query`, overridden by a synthetic open-URL result
when the release channel is `Dev` and `parse_zed_link` recognizes the query. -/
def computeIntercept (interceptorResult : Option CommandInterceptResult)
    (releaseChannel : Option ReleaseChannel) (parseZedLink : String → Option String)
    (query : String) : Option CommandInterceptResult :=
  if releaseChannel = some ReleaseChannel.dev ∧ (parseZedLink query).isSome then
    some { action := openZedUrlAction query, string := query, positions := [] }
  else
    interceptorResult

/-- The predicate of the dedup scan (line 261): does match `m` refer to a
command whose action has the intercepted action's type id?  Rust indexes
`commands[m.candidate_id]` and would panic out of bounds (the fuzzy contract
rules that out); out of bounds is totalized to `false` here. -/
def sameTypeAsIntercept (commands : List Command) (action : Action)
    (m : StringMatch) : Bool :=
  match commands[m.candidate_id]? with
  | some c => decide (c.action.typeId = action.typeId)
  | none => false

/-- Splicing an intercept result into the match list (lines 253-278): remove
the first fuzzy match of the same action type (`position` then `remove`,
i.e. `List.eraseP`), push the synthetic command, and insert the synthetic
match at position 0 with the interceptor's string and positions and score
`0.0`. -/
def spliceIntercept (commands : List Command) (matchList : List StringMatch)
    (r : CommandInterceptResult) : List Command × List StringMatch :=
  let matchList' := matchList.eraseP (sameTypeAsIntercept commands r.action)
  let commands' := commands ++ [{ name := r.string, action := r.action }]
  (commands',
    { candidate_id := commands'.length - 1, string := r.string,
      positions := r.positions, score := 0 } :: matchList')

/-- The ranking pipeline: the body of `update_matches`' spawned task as a
function of its inputs.  `fuzzy` is the opaque `fuzzy::match_strings`
collaborator.  Returns the final `(commands, matchList)` pair written back into
the delegate. -/
def rank (fuzzy : List StringMatchCandidate → String → List StringMatch)
    (h : HitCounts) (interceptorResult : Option CommandInterceptResult)
    (releaseChannel : Option ReleaseChannel) (parseZedLink : String → Option String)
    (allCommands : List Command) (query : String) :
    List Command × List StringMatch :=
  let commands := sortCommands h allCommands
  let candidates := mkCandidates commands
  let matchList :=
    if query.isEmpty then emptyQueryMatches candidates
    else fuzzy candidates query
  match computeIntercept interceptorResult releaseChannel parseZedLink query with
  | none => (commands, matchList)
  | some r => spliceIntercept commands matchList r

/-! ## Confirm / selection protocol (`confirm`, lines 302-322) -/

/-- The mutable fields of `CommandPaletteDelegate` that the claims concern. -/
structure PaletteState where
  all_commands : List Command
  commands : List Command
  matchList : List StringMatch
  selected_ix : Nat

/-- `Vec::swap_remove(i)`: replace element `i` with the last element and pop;
`none` models the Rust panic on an out-of-bounds index. -/
def swapRemove {α : Type} (l : List α) (i : Nat) : Option (α × List α) :=
  match l[i]?, l.getLast? with
  | some x, some last => some (x, (l.set i last).dropLast)
  | _, _ => none

/-- `hit_counts.0.entry(command.name).or_default() += 1`. -/
def bump (h : HitCounts) (name : String) : HitCounts :=
  fun k => if k = name then some ((h name).getD 0 + 1) else h k

/-- What a `confirm` call did: the delegate state and global `HitCounts`
afterwards, the action handed to `dispatch_action` (if any), and whether
`dismissed` ran. -/
structure ConfirmOutcome where
  state : PaletteState
  hits : HitCounts
  dispatched : Option Action
  dismissed : Bool

/-- `CommandPaletteDelegate::confirm` (lines 302-322) as a transformer of the
delegate fields and the global `HitCounts`; `none` models a Rust index
panic. -/
def confirm (s : PaletteState) (h : HitCounts) : Option ConfirmOutcome :=
  if s.matchList.isEmpty then
    some { state := s, hits := h, dispatched := none, dismissed := true }
  else
    match s.matchList[s.selected_ix]? with
    | none => none
    | some m =>
      match swapRemove s.commands m.candidate_id with
      | some (command, _) =>
        some { state := { s with matchList := [], commands := [] },
               hits := bump h command.name,
               dispatched := some command.action,
               dismissed := true }
      | none => none

/-! ## Session transition system (for the history invariant) -/

/-- The collaborators fixed for a palette session. -/
structure Env where
  fuzzy : List StringMatchCandidate → String → List StringMatch
  parseZedLink : String → Option String
  releaseChannel : Option ReleaseChannel

/-- One user-visible operation on the palette. -/
inductive Op where
  | updateMatches (query : String) (interceptorResult : Option CommandInterceptResult)
  | confirmSel

/-- Delegate state plus the process-global `HitCounts`. -/
structure SysState where
  palette : PaletteState
  hits : HitCounts

/-- Applying a completed `update_matches` task to the delegate
(lines 280-292): store the ranked lists and clamp the selection. -/
def applyUpdateMatches (env : Env) (s : SysState) (query : String)
    (interceptorResult : Option CommandInterceptResult) : SysState :=
  let out := rank env.fuzzy s.hits interceptorResult env.releaseChannel
      env.parseZedLink s.palette.all_commands query
  { palette := { s.palette with
      commands := out.1, matchList := out.2,
      selected_ix := if out.2.isEmpty then 0
                     else min s.palette.selected_ix (out.2.length - 1) },
    hits := s.hits }

/-- One operation step; `none` is a Rust panic inside `confirm`. -/
def step (env : Env) (s : SysState) : Op → Option SysState
  | .updateMatches q ir => some (applyUpdateMatches env s q ir)
  | .confirmSel =>
    (confirm s.palette s.hits).map fun o => { palette := o.state, hits := o.hits }

/-- Running a sequence of operations. -/
def runOps (env : Env) : SysState → List Op → Option SysState
  | s, [] => some s
  | s, op :: ops => (step env s op).bind fun s' => runOps env s' ops

end Zed

namespace Zed

/-! ## Helper facts about `splitColons` -/

/-- Whether a raw name contains the `"::"` namespace separator. -/
def hasSeparator : List Char → Bool
  | [] => false
  | ':' :: ':' :: _ => true
  | _ :: rest => hasSeparator rest

/-- Concrete fixture action for witnesses. -/
def exAction : Action :=
  { name := "x::B", typeId := ActionType.external 0, payload := "" }

/-- Concrete fixture command for witnesses. -/
def exCommand : Command :=
  { name := "b", action := exAction }

/-- Concrete fixture match for witnesses, referring to candidate 0. -/
def exMatch : StringMatch :=
  { candidate_id := 0, string := "b", positions := [], score := 0 }

/-- Concrete fixture palette state for witnesses: one command, one match. -/
def exState : PaletteState :=
  { all_commands := [exCommand], commands := [exCommand],
    matchList := [exMatch], selected_ix := 0 }

/-- Concrete empty history for witnesses. -/
def noHits : HitCounts := fun _ => none

/-- Concrete fixture intercept result for witnesses, with an action type
distinct from `exAction`'s. -/
def exIntercept : CommandInterceptResult :=
  { action := openZedUrlAction "u", string := "u", positions := [] }

/-- Concrete fixture environment for witnesses. -/
def exEnv : Env :=
  { fuzzy := fun _ _ => [], parseZedLink := fun _ => none, releaseChannel := none }

/-- Concrete fixture system state for witnesses. -/
def exSys : SysState := { palette := exState, hits := noHits }

/-- The outcome `confirm` produces on `exState` with empty history. -/
def exConfirmed : ConfirmOutcome :=
  { state := { exState with matchList := [], commands := [] },
    hits := bump noHits exCommand.name,
    dispatched := some exCommand.action, dismissed := true }

/-- The system state after confirming the selection in `exSys`. -/
def exSysDone : SysState :=
  { palette := exConfirmed.state, hits := exConfirmed.hits }

theorem splitColons_ne_nil (l : List Char) : splitColons l ≠ [] := by
  rw [splitColons.eq_def]
  split
  · simp
  · simp
  · split <;> simp

theorem hasSeparator_cons (c : Char) (rest : List Char)
    (hne : ∀ rest', c = ':' → rest = ':' :: rest' → False) :
    hasSeparator (c :: rest) = hasSeparator rest := by
  rw [hasSeparator.eq_def]
  split
  · simp_all
  · rename_i rest' heq
    injection heq with h1 h2
    exact (hne rest' h1 h2).elim
  · rename_i a c' rest' g heq
    injection heq with h1 h2
    rw [h2]

theorem splitColons_cons (c : Char) (rest : List Char)
    (hne : ∀ rest', c = ':' → rest = ':' :: rest' → False) :
    splitColons (c :: rest) =
      match splitColons rest with
      | [] => [[c]]
      | seg :: segs => (c :: seg) :: segs := by
  rw [splitColons.eq_def]
  split
  · simp_all
  · rename_i rest' heq
    injection heq with h1 h2
    exact (hne rest' h1 h2).elim
  · rename_i a c' rest' g heq
    injection heq with h1 h2
    rw [h1, h2]

theorem splitColons_no_sep (l : List Char) (h : hasSeparator l = false) :
    splitColons l = [l] := by
  induction l using splitColons.induct with
  | case1 => rfl
  | case2 rest ih => simp [hasSeparator] at h
  | case3 c rest hne hsc ih =>
    rw [hasSeparator_cons c rest hne] at h
    rw [splitColons_cons c rest hne, ih h]
  | case4 c rest hne seg segs hsc ih =>
    rw [hasSeparator_cons c rest hne] at h
    rw [splitColons_cons c rest hne, ih h]

end Zed

namespace Zed

/-- C5: `humanize_action_name` maps raw namespaced action names
character-by-character per the rewrite rules embedded in `humanizeStep`
(`::` becomes `: `, `_` a space, an uppercase letter its lowercase form
preceded by a space unless one is already there, everything else verbatim);
in particular the three documented examples hold. -/
theorem humanize_action_name_spec :
    humanize_action_name "editor::GoToDefinition" = "editor: go to definition" ∧
    humanize_action_name "editor::Backspace" = "editor: backspace" ∧
    humanize_action_name "go_to_line::Deploy" = "go to line: deploy" := by
  refine ⟨?_, ?_, ?_⟩ <;> decide

/-- C7: `confirm` on an empty match list behaves as a dismiss, not an error:
the call succeeds (no panic), dispatches no action, leaves the `HitCounts`
and the command list untouched, and emits the dismissal. -/
theorem confirm_empty_is_dismiss (s : PaletteState) (h : HitCounts)
    (he : s.matchList = []) :
    confirm s h =
      some { state := s, hits := h, dispatched := none, dismissed := true } := by
  simp [confirm, he]

/-- Witness for C7 at a concrete state. -/
theorem confirm_empty_is_dismiss_witness :
    confirm { all_commands := [], commands := [], matchList := [], selected_ix := 0 }
        (fun _ => none) =
      some { state := { all_commands := [], commands := [], matchList := [],
                        selected_ix := 0 },
             hits := fun _ => none, dispatched := none, dismissed := true } :=
  confirm_empty_is_dismiss
    { all_commands := [], commands := [], matchList := [], selected_ix := 0 }
    (fun _ => none) rfl

/-- C8: on the development release channel, a query that parses as a zed link
makes the pipeline synthesize an open-URL intercept result (string equal to
the query, no highlight positions) that replaces whatever the registered
interceptor returned; otherwise the interceptor's result is left in place. -/
theorem computeIntercept_dev_override (ir : Option CommandInterceptResult)
    (rc : Option ReleaseChannel) (pz : String → Option String) (q : String) :
    ((rc = some ReleaseChannel.dev ∧ (pz q).isSome = true) →
      computeIntercept ir rc pz q =
        some { action := openZedUrlAction q, string := q, positions := [] }) ∧
    ((rc ≠ some ReleaseChannel.dev ∨ pz q = none) →
      computeIntercept ir rc pz q = ir) := by
  constructor
  · intro hc
    simp [computeIntercept, hc.1, hc.2]
  · intro hc
    rcases hc with hc | hc
    · simp [computeIntercept, hc]
    · simp [computeIntercept, hc]

/-- Witness for C8: both branches at concrete inputs. -/
theorem computeIntercept_dev_override_witness :
    computeIntercept none (some ReleaseChannel.dev) (fun _ => some "ok") "zed://x" =
      some { action := openZedUrlAction "zed://x", string := "zed://x",
             positions := [] } ∧
    computeIntercept none (some ReleaseChannel.stable) (fun _ => some "ok") "zed://x" =
      none :=
  ⟨(computeIntercept_dev_override none (some ReleaseChannel.dev)
      (fun _ => some "ok") "zed://x").1 ⟨rfl, rfl⟩,
   (computeIntercept_dev_override none (some ReleaseChannel.stable)
      (fun _ => some "ok") "zed://x").2 (Or.inl (by simp))⟩

/-- C9 counterexample: for the separator-less raw name `"foo"` the namespace
used for filtering is `"foo"` itself, not the label
`"malformed action name"`; a filter hiding that label does not hide the
action, contradicting the claim that the label serves as the action's
namespace. -/
theorem namespaceOf_fallback_is_dead :
    namespaceOf "foo" = "foo" ∧
    namespaceOf "foo" ≠ "malformed action name" ∧
    commandPaletteNew [{ name := "foo", typeId := ActionType.external 0, payload := "" }]
        (some { hidden_namespaces := ["malformed action name"],
                hidden_action_types := [] }) =
      [{ name := humanize_action_name "foo",
         action := { name := "foo", typeId := ActionType.external 0, payload := "" } }] := by
  refine ⟨by decide, by decide, by decide⟩

/-- C9 amended: catalog construction never fails on a name lacking `"::"` —
`split("::")` always yields a first segment, so the
`"malformed action name"` fallback is unreachable, and the namespace used
for filtering such a name is the whole name itself. -/
theorem namespaceOf_no_separator (name : String)
    (h : hasSeparator name.data = false) :
    splitColons name.data ≠ [] ∧ namespaceOf name = name := by
  refine ⟨splitColons_ne_nil name.data, ?_⟩
  rw [namespaceOf, splitColons_no_sep name.data h]
  rfl

/-- Witness for the amended C9 at the concrete name `"foo"`. -/
theorem namespaceOf_no_separator_witness :
    splitColons "foo".data ≠ [] ∧ namespaceOf "foo" = "foo" :=
  namespaceOf_no_separator "foo" (by decide)

end Zed

namespace Zed

/-! ## Facts about the browse-all branch -/

theorem mkCandidates_length (L : List Command) :
    (mkCandidates L).length = L.length := by
  simp [mkCandidates]

theorem emptyQueryMatches_mkCandidates_length (L : List Command) :
    (emptyQueryMatches (mkCandidates L)).length = L.length := by
  simp [emptyQueryMatches, mkCandidates]

theorem emptyQueryMatches_mkCandidates_getElem (L : List Command) (i : Nat) :
    (emptyQueryMatches (mkCandidates L))[i]? =
      (L[i]?).map fun c =>
        { candidate_id := i, string := c.name, positions := [], score := 0 } := by
  cases hL : L[i]? <;>
    simp [emptyQueryMatches, mkCandidates, List.getElem?_map, List.getElem?_enum,
      Option.map_map, hL, Function.comp]

/-- C3: for the empty query with no intercept, the pipeline returns exactly
one `Match` per catalog entry in the history-sorted catalog order, each with
score 0, no highlighted positions, and `candidate_id` equal to its position
in the sorted catalog. -/
theorem rank_empty_query (f : List StringMatchCandidate → String → List StringMatch)
    (h : HitCounts) (ir : Option CommandInterceptResult) (rc : Option ReleaseChannel)
    (pz : String → Option String) (cmds : List Command) (i : Nat)
    (hni : computeIntercept ir rc pz "" = none) :
    (rank f h ir rc pz cmds "").1 = sortCommands h cmds ∧
    (rank f h ir rc pz cmds "").2.length = (sortCommands h cmds).length ∧
    ((rank f h ir rc pz cmds "").2)[i]? =
      ((sortCommands h cmds)[i]?).map fun c =>
        { candidate_id := i, string := c.name, positions := [], score := 0 } := by
  unfold rank
  rw [hni]
  exact ⟨rfl, emptyQueryMatches_mkCandidates_length _,
    emptyQueryMatches_mkCandidates_getElem _ i⟩

end Zed

namespace Zed

/-- Witness for C3 at a concrete one-command catalog. -/
theorem rank_empty_query_witness :
    (rank (fun _ _ => []) (fun _ => none) none none (fun _ => none)
        [{ name := "b", action := { name := "x::B", typeId := ActionType.external 0,
                                    payload := "" } }] "").1 =
      sortCommands (fun _ => none)
        [{ name := "b", action := { name := "x::B", typeId := ActionType.external 0,
                                    payload := "" } }] ∧
    (rank (fun _ _ => []) (fun _ => none) none none (fun _ => none)
        [{ name := "b", action := { name := "x::B", typeId := ActionType.external 0,
                                    payload := "" } }] "").2.length =
      (sortCommands (fun _ => none)
        [{ name := "b", action := { name := "x::B", typeId := ActionType.external 0,
                                    payload := "" } }]).length ∧
    ((rank (fun _ _ => []) (fun _ => none) none none (fun _ => none)
        [{ name := "b", action := { name := "x::B", typeId := ActionType.external 0,
                                    payload := "" } }] "").2)[0]? =
      ((sortCommands (fun _ => none)
        [{ name := "b", action := { name := "x::B", typeId := ActionType.external 0,
                                    payload := "" } }])[0]?).map fun c =>
        { candidate_id := 0, string := c.name, positions := [], score := 0 } :=
  rank_empty_query (fun _ _ => []) (fun _ => none) none none (fun _ => none)
    [{ name := "b", action := { name := "x::B", typeId := ActionType.external 0,
                                payload := "" } }] 0 rfl

/-- C4: `confirm` on a valid selection resolves the selected match to its
command, clears both the match list and the command list, increments the
selected command's hit count by exactly one leaving every other key
unchanged, and dispatches the command's action. -/
theorem confirm_valid (s : PaletteState) (h : HitCounts) (m : StringMatch)
    (cmd : Command) (k : String)
    (hm : s.matchList[s.selected_ix]? = some m)
    (hc : s.commands[m.candidate_id]? = some cmd)
    (hk : k ≠ cmd.name) :
    confirm s h =
      some { state := { s with matchList := [], commands := [] },
             hits := bump h cmd.name,
             dispatched := some cmd.action,
             dismissed := true } ∧
    bump h cmd.name cmd.name = some (hitCount h cmd.name + 1) ∧
    bump h cmd.name k = h k := by
  have hne : s.matchList ≠ [] := by
    intro he
    rw [he] at hm
    simp at hm
  have hisE : s.matchList.isEmpty = false := List.isEmpty_eq_false.mpr hne
  have hcne : s.commands ≠ [] := by
    intro he
    rw [he] at hc
    simp at hc
  obtain ⟨last, hlast⟩ : ∃ x, s.commands.getLast? = some x := by
    cases hL : s.commands.getLast? with
    | none => exact absurd (List.getLast?_eq_none_iff.mp hL) hcne
    | some x => exact ⟨x, rfl⟩
  refine ⟨?_, ?_, ?_⟩
  · simp [confirm, hisE, hm, swapRemove, hc, hlast]
  · simp [bump, hitCount]
  · simp [bump, hk]

/-- Witness for C4 at a concrete one-command palette. -/
theorem confirm_valid_witness :
    confirm exState noHits =
      some { state := { exState with matchList := [], commands := [] },
             hits := bump noHits exCommand.name,
             dispatched := some exCommand.action,
             dismissed := true } ∧
    bump noHits exCommand.name exCommand.name =
      some (hitCount noHits exCommand.name + 1) ∧
    bump noHits exCommand.name "other" = noHits "other" :=
  confirm_valid exState noHits exMatch exCommand "other" rfl rfl (by decide)

end Zed

namespace Zed

/-! ## Order facts for the history sort -/

theorem optLt_trans {a b c : Option Nat} (h1 : optLt a b = true)
    (h2 : optLt b c = true) : optLt a c = true := by
  cases a <;> cases b <;> cases c <;> simp_all [optLt] <;> omega

theorem optLt_trichotomy (a b : Option Nat) :
    optLt a b = true ∨ a = b ∨ optLt b a = true := by
  cases a <;> cases b <;> simp [optLt] <;> omega

theorem charsLe_total (xs ys : List Char) :
    charsLe xs ys = true ∨ charsLe ys xs = true := by
  induction xs generalizing ys with
  | nil => left; simp [charsLe]
  | cons a xs ih =>
    cases ys with
    | nil => right; simp [charsLe]
    | cons b ys' =>
      by_cases hab : a = b
      · subst hab
        rcases ih ys' with hc | hc
        · left; simp [charsLe, hc]
        · right; simp [charsLe, hc]
      · rcases lt_or_gt_of_ne hab with hlt | hgt
        · left; simp [charsLe, hab, hlt]
        · right; simp [charsLe, Ne.symm hab, hgt]

theorem charsLe_trans {xs ys zs : List Char} (h1 : charsLe xs ys = true)
    (h2 : charsLe ys zs = true) : charsLe xs zs = true := by
  induction xs generalizing ys zs with
  | nil => simp [charsLe]
  | cons a xs ih =>
    cases ys with
    | nil => simp [charsLe] at h1
    | cons b ys' =>
      cases zs with
      | nil => simp [charsLe] at h2
      | cons c zs' =>
        by_cases hab : a = b <;> by_cases hbc : b = c
        · subst hab; subst hbc
          simp only [charsLe, if_pos rfl] at h1 h2 ⊢
          exact ih h1 h2
        · subst hab
          simp only [charsLe, if_pos rfl, if_neg hbc] at h1 h2 ⊢
          simp [hbc] at h2 ⊢
          exact h2
        · subst hbc
          simp only [charsLe, if_neg hab] at h1 ⊢
          exact h1
        · simp only [charsLe, if_neg hab, if_neg hbc, decide_eq_true_eq] at h1 h2
          have hac : a < c := lt_trans h1 h2
          simp [charsLe, ne_of_lt hac, hac]

theorem commandLe_trans (h : HitCounts) (a b c : Command)
    (h1 : commandLe h a b = true) (h2 : commandLe h b c = true) :
    commandLe h a c = true := by
  simp only [commandLe, Bool.or_eq_true, Bool.and_eq_true, decide_eq_true_eq] at h1 h2 ⊢
  rcases h1 with h1 | ⟨e1, l1⟩ <;> rcases h2 with h2 | ⟨e2, l2⟩
  · exact Or.inl (optLt_trans h2 h1)
  · rw [← e2]
    exact Or.inl h1
  · rw [e1]
    exact Or.inl h2
  · exact Or.inr ⟨e1.trans e2, charsLe_trans l1 l2⟩

theorem commandLe_total (h : HitCounts) (a b : Command) :
    commandLe h a b = true ∨ commandLe h b a = true := by
  simp only [commandLe, Bool.or_eq_true, Bool.and_eq_true, decide_eq_true_eq]
  rcases optLt_trichotomy (h a.name) (h b.name) with hlt | heq | hgt
  · right; left; exact hlt
  · rcases charsLe_total a.name.data b.name.data with hc | hc
    · left; right; exact ⟨heq, hc⟩
    · right; right; exact ⟨heq.symm, hc⟩
  · left; left; exact hgt

/-- Under a well-formed history (all stored counts positive, which is
invariant since counts are only ever created by an increment), the sort
comparator realizes the spec-level key: descending hit count, ties by
ascending name. -/
theorem commandLe_key (h : HitCounts) (hpos : ∀ n c, h n = some c → 1 ≤ c)
    (a b : Command) (hle : commandLe h a b = true) :
    hitCount h b.name < hitCount h a.name ∨
      (hitCount h a.name = hitCount h b.name ∧
        charsLe a.name.data b.name.data = true) := by
  simp only [commandLe, Bool.or_eq_true, Bool.and_eq_true, decide_eq_true_eq] at hle
  rcases hle with hlt | ⟨heq, hc⟩
  · left
    cases hb : h b.name with
    | none =>
      cases ha : h a.name with
      | none => rw [ha, hb] at hlt; simp [optLt] at hlt
      | some ca =>
        have := hpos a.name ca ha
        simp [hitCount, ha, hb]
        omega
    | some cb =>
      cases ha : h a.name with
      | none => rw [ha, hb] at hlt; simp [optLt] at hlt
      | some ca =>
        rw [ha, hb] at hlt
        simp only [optLt, decide_eq_true_eq] at hlt
        simp [hitCount, ha, hb]
        omega
  · right
    exact ⟨by simp [hitCount, heq], hc⟩

end Zed

namespace Zed

/-- C2: the pipeline stable-sorts the full catalog by
(descending hit count, ascending name) unconditionally before fuzzy
filtering and before the empty-query branch: the sorted catalog is a
permutation of the input ordered by the key (given that stored counts are
positive, as every stored count is created by an increment), and for every
query the commands list the pipeline returns is exactly the sorted catalog
(plus, after it, only the synthetic intercept command when one exists). -/
theorem sortCommands_spec
    (f : List StringMatchCandidate → String → List StringMatch)
    (h : HitCounts) (ir : Option CommandInterceptResult)
    (rc : Option ReleaseChannel) (pz : String → Option String)
    (cmds : List Command) (q : String)
    (hpos : ∀ n c, h n = some c → 1 ≤ c) :
    (sortCommands h cmds).Perm cmds ∧
    (sortCommands h cmds).Pairwise (fun a b =>
      hitCount h b.name < hitCount h a.name ∨
        (hitCount h a.name = hitCount h b.name ∧
          charsLe a.name.data b.name.data = true)) ∧
    (rank f h ir rc pz cmds q).1 =
      sortCommands h cmds ++
        (match computeIntercept ir rc pz q with
         | none => []
         | some r => [{ name := r.string, action := r.action }]) := by
  refine ⟨List.perm_insertionSort _ cmds, ?_, ?_⟩
  · haveI : IsTotal Command (fun a b => commandLe h a b = true) :=
      ⟨fun a b => commandLe_total h a b⟩
    haveI : IsTrans Command (fun a b => commandLe h a b = true) :=
      ⟨fun a b c => commandLe_trans h a b c⟩
    have hs := List.sorted_insertionSort (fun a b : Command => commandLe h a b = true) cmds
    exact List.Pairwise.imp (fun hab => commandLe_key h hpos _ _ hab) hs
  · unfold rank
    cases hci : computeIntercept ir rc pz q with
    | none => simp
    | some r => simp [spliceIntercept]

/-- Witness for C2 at a concrete two-command catalog with one recorded hit:
the used command precedes the alphabetically smaller unused one. -/
theorem sortCommands_spec_witness :
    (sortCommands (fun n => if n = "b" then some 2 else none)
        [{ name := "a", action := { name := "y::A", typeId := ActionType.external 1,
                                    payload := "" } }, exCommand]).Perm
      [{ name := "a", action := { name := "y::A", typeId := ActionType.external 1,
                                  payload := "" } }, exCommand] ∧
    (sortCommands (fun n => if n = "b" then some 2 else none)
        [{ name := "a", action := { name := "y::A", typeId := ActionType.external 1,
                                    payload := "" } }, exCommand]).Pairwise (fun a b =>
      hitCount (fun n => if n = "b" then some 2 else none) b.name <
          hitCount (fun n => if n = "b" then some 2 else none) a.name ∨
        (hitCount (fun n => if n = "b" then some 2 else none) a.name =
            hitCount (fun n => if n = "b" then some 2 else none) b.name ∧
          charsLe a.name.data b.name.data = true)) ∧
    (rank (fun _ _ => []) (fun n => if n = "b" then some 2 else none) none none
        (fun _ => none)
        [{ name := "a", action := { name := "y::A", typeId := ActionType.external 1,
                                    payload := "" } }, exCommand] "").1 =
      sortCommands (fun n => if n = "b" then some 2 else none)
          [{ name := "a", action := { name := "y::A", typeId := ActionType.external 1,
                                      payload := "" } }, exCommand] ++
        (match computeIntercept none none (fun _ => none) "" with
         | none => []
         | some r => [{ name := r.string, action := r.action }]) :=
  sortCommands_spec (fun _ _ => []) (fun n => if n = "b" then some 2 else none)
    none none (fun _ => none)
    [{ name := "a", action := { name := "y::A", typeId := ActionType.external 1,
                                payload := "" } }, exCommand] ""
    (fun n c hc => by
      by_cases hn : n = "b"
      · simp [hn] at hc
        omega
      · simp [hn] at hc)

end Zed

namespace Zed

/-! ## Facts about the intercept splice -/

theorem sameType_true_iff (S : List Command) (a : Action) (m : StringMatch) :
    sameTypeAsIntercept S a m = true ↔
      ∃ c, S[m.candidate_id]? = some c ∧ c.action.typeId = a.typeId := by
  unfold sameTypeAsIntercept
  cases h : S[m.candidate_id]? <;> simp

theorem eraseP_no_sat {α : Type} {p : α → Bool} {l : List α}
    (h1 : l.countP p ≤ 1) : ∀ x ∈ l.eraseP p, p x = false := by
  induction l with
  | nil => simp
  | cons a t ih =>
    by_cases hpa : p a = true
    · rw [List.eraseP_cons_of_pos hpa]
      intro x hx
      rw [List.countP_cons] at h1
      simp only [hpa, if_true] at h1
      have ht : t.countP p = 0 := by omega
      have := List.countP_eq_zero.mp ht x hx
      simpa using this
    · rw [List.eraseP_cons_of_neg hpa]
      intro x hx
      rcases List.mem_cons.mp hx with rfl | hx'
      · simpa using hpa
      · refine ih ?_ x hx'
        rw [List.countP_cons] at h1
        simp only [hpa, if_false] at h1
        omega

theorem countP_le_one_of_pairwise {α : Type} {p : α → Bool} {l : List α}
    (hp : l.Pairwise (fun x y => ¬(p x = true ∧ p y = true))) :
    l.countP p ≤ 1 := by
  induction l with
  | nil => simp
  | cons a t ih =>
    rw [List.pairwise_cons] at hp
    rw [List.countP_cons]
    by_cases hpa : p a = true
    · have ht : t.countP p = 0 :=
        List.countP_eq_zero.mpr fun y hy hpy => hp.1 y hy ⟨hpa, hpy⟩
      simp [hpa, ht]
    · have := ih hp.2
      simp [hpa]
      omega

theorem pairwise_type_distinct {l : List Command}
    (hl : l.Pairwise (fun a b => a.action.typeId ≠ b.action.typeId))
    {i j : Nat} {c1 c2 : Command} (hij : i ≠ j)
    (h1 : l[i]? = some c1) (h2 : l[j]? = some c2) :
    c1.action.typeId ≠ c2.action.typeId := by
  rw [List.getElem?_eq_some] at h1 h2
  obtain ⟨hi, e1⟩ := h1
  obtain ⟨hj, e2⟩ := h2
  rw [List.pairwise_iff_get] at hl
  rcases Nat.lt_or_ge i j with hlt | hge
  · have := hl ⟨i, hi⟩ ⟨j, hj⟩ hlt
    simp only [List.get_eq_getElem, e1, e2] at this
    exact this
  · have hjl : j < i := lt_of_le_of_ne hge (Ne.symm hij)
    have := hl ⟨j, hj⟩ ⟨i, hi⟩ hjl
    simp only [List.get_eq_getElem, e1, e2] at this
    exact this.symm

theorem emptyQueryMatches_id_lt {L : List Command} {m : StringMatch}
    (hm : m ∈ emptyQueryMatches (mkCandidates L)) :
    m.candidate_id < L.length := by
  rcases List.mem_map.mp hm with ⟨p, hp, rfl⟩
  have := List.mem_enum hp
  have hlen : (mkCandidates L).length = L.length := mkCandidates_length L
  simp only []
  omega

end Zed

namespace Zed

theorem rank_eq (f : List StringMatchCandidate → String → List StringMatch)
    (h : HitCounts) (ir : Option CommandInterceptResult)
    (rc : Option ReleaseChannel) (pz : String → Option String)
    (cmds : List Command) (q : String) :
    rank f h ir rc pz cmds q =
      match computeIntercept ir rc pz q with
      | none =>
        (sortCommands h cmds,
          if q.isEmpty then emptyQueryMatches (mkCandidates (sortCommands h cmds))
          else f (mkCandidates (sortCommands h cmds)) q)
      | some r =>
        spliceIntercept (sortCommands h cmds)
          (if q.isEmpty then emptyQueryMatches (mkCandidates (sortCommands h cmds))
           else f (mkCandidates (sortCommands h cmds)) q) r := rfl

/-- C10: assuming the fuzzy matcher's contract (returned candidate ids index
into the candidate list it was given), every match the pipeline returns has a
`candidate_id` that indexes into the final commands list, and when an
intercept result is present the synthetic match at position 0 refers exactly
to the appended synthetic command. -/
theorem rank_match_ids_valid
    (f : List StringMatchCandidate → String → List StringMatch)
    (h : HitCounts) (ir : Option CommandInterceptResult)
    (rc : Option ReleaseChannel) (pz : String → Option String)
    (cmds : List Command) (q : String) (m : StringMatch)
    (r : CommandInterceptResult)
    (hf : ∀ m' ∈ f (mkCandidates (sortCommands h cmds)) q,
        m'.candidate_id < (sortCommands h cmds).length) :
    (m ∈ (rank f h ir rc pz cmds q).2 →
        m.candidate_id < (rank f h ir rc pz cmds q).1.length) ∧
    (computeIntercept ir rc pz q = some r →
        (rank f h ir rc pz cmds q).2.head? =
          some { candidate_id := (rank f h ir rc pz cmds q).1.length - 1,
                 string := r.string, positions := r.positions, score := 0 } ∧
        ((rank f h ir rc pz cmds q).1)[(rank f h ir rc pz cmds q).1.length - 1]? =
          some { name := r.string, action := r.action }) := by
  have hM : ∀ m' ∈ (if q.isEmpty
        then emptyQueryMatches (mkCandidates (sortCommands h cmds))
        else f (mkCandidates (sortCommands h cmds)) q),
      m'.candidate_id < (sortCommands h cmds).length := by
    intro m' hm'
    by_cases hq : q.isEmpty
    · rw [if_pos hq] at hm'
      exact emptyQueryMatches_id_lt hm'
    · rw [if_neg hq] at hm'
      exact hf m' hm'
  rw [rank_eq]
  cases hci : computeIntercept ir rc pz q with
  | none =>
    constructor
    · intro hm
      exact hM m hm
    · intro hcon
      exact Option.noConfusion hcon
  | some rr =>
    constructor
    · intro hm
      simp only [spliceIntercept] at hm ⊢
      rcases List.mem_cons.mp hm with rfl | hm'
      · simp [List.length_append]
      · have := hM m (List.mem_of_mem_eraseP hm')
        simp only [List.length_append, List.length_cons, List.length_nil]
        omega
    · intro heq
      injection heq with heq'
      subst heq'
      constructor
      · simp [spliceIntercept]
      · simp only [spliceIntercept, List.length_append, List.length_cons,
          List.length_nil, Nat.add_sub_cancel]
        exact List.getElem?_concat_length _ _

end Zed

namespace Zed

/-- Witness for C10 at a concrete catalog with an intercept present. -/
theorem rank_match_ids_valid_witness :
    (({ candidate_id := 1, string := "u", positions := [],
        score := 0 } : StringMatch).candidate_id <
      (rank (fun _ _ => []) noHits (some exIntercept) none (fun _ => none)
        [exCommand] "x").1.length) ∧
    ((rank (fun _ _ => []) noHits (some exIntercept) none (fun _ => none)
        [exCommand] "x").2.head? =
      some { candidate_id :=
              (rank (fun _ _ => []) noHits (some exIntercept) none (fun _ => none)
                [exCommand] "x").1.length - 1,
             string := exIntercept.string, positions := exIntercept.positions,
             score := 0 } ∧
     ((rank (fun _ _ => []) noHits (some exIntercept) none (fun _ => none)
        [exCommand] "x").1)[(rank (fun _ _ => []) noHits (some exIntercept) none
          (fun _ => none) [exCommand] "x").1.length - 1]? =
      some { name := exIntercept.string, action := exIntercept.action }) :=
  ⟨(rank_match_ids_valid (fun _ _ => []) noHits (some exIntercept) none
      (fun _ => none) [exCommand] "x"
      { candidate_id := 1, string := "u", positions := [], score := 0 }
      exIntercept (by simp)).1 (by decide),
   (rank_match_ids_valid (fun _ _ => []) noHits (some exIntercept) none
      (fun _ => none) [exCommand] "x"
      { candidate_id := 1, string := "u", positions := [], score := 0 }
      exIntercept (by simp)).2 rfl⟩

end Zed

namespace Zed

/-- C1: for a non-empty query with an intercept result, the first match in
the pipeline output is the synthetic one carrying the intercept's string,
positions, and score 0, and no later match refers to a command whose action
has the intercepted action's type identity.  Hypotheses: the fuzzy matcher's
contract (valid, pairwise-distinct candidate ids) and the catalog invariant
that registered actions have pairwise-distinct type ids. -/
theorem rank_intercept_first_and_unique
    (f : List StringMatchCandidate → String → List StringMatch)
    (h : HitCounts) (ir : Option CommandInterceptResult)
    (rc : Option ReleaseChannel) (pz : String → Option String)
    (cmds : List Command) (q : String) (r : CommandInterceptResult)
    (m : StringMatch) (c : Command)
    (hq : q ≠ "")
    (hr : computeIntercept ir rc pz q = some r)
    (hfval : ∀ m' ∈ f (mkCandidates (sortCommands h cmds)) q,
        m'.candidate_id < (sortCommands h cmds).length)
    (hfnodup : (f (mkCandidates (sortCommands h cmds)) q).Pairwise
        (fun m1 m2 => m1.candidate_id ≠ m2.candidate_id))
    (htypes : cmds.Pairwise (fun a b => a.action.typeId ≠ b.action.typeId)) :
    (rank f h ir rc pz cmds q).2.head? =
      some { candidate_id := (rank f h ir rc pz cmds q).1.length - 1,
             string := r.string, positions := r.positions, score := 0 } ∧
    (m ∈ (rank f h ir rc pz cmds q).2.tail →
      ((rank f h ir rc pz cmds q).1)[m.candidate_id]? = some c →
      c.action.typeId ≠ r.action.typeId) := by
  have hqe : q.isEmpty = false := by
    cases hqe : q.isEmpty with
    | true => exact absurd ((String.isEmpty_iff q).mp hqe) hq
    | false => rfl
  have hS : (sortCommands h cmds).Pairwise
      (fun a b => a.action.typeId ≠ b.action.typeId) :=
    ((List.perm_insertionSort _ cmds).pairwise_iff fun hab => hab.symm).mpr htypes
  have hP : (f (mkCandidates (sortCommands h cmds)) q).Pairwise
      (fun m1 m2 =>
        ¬(sameTypeAsIntercept (sortCommands h cmds) r.action m1 = true ∧
          sameTypeAsIntercept (sortCommands h cmds) r.action m2 = true)) := by
    refine List.Pairwise.imp ?_ hfnodup
    intro m1 m2 hne hcon
    rcases (sameType_true_iff _ _ _).mp hcon.1 with ⟨c1, hl1, ht1⟩
    rcases (sameType_true_iff _ _ _).mp hcon.2 with ⟨c2, hl2, ht2⟩
    exact pairwise_type_distinct hS hne hl1 hl2 (ht1.trans ht2.symm)
  have hcount := countP_le_one_of_pairwise hP
  have hclean := eraseP_no_sat hcount
  rw [rank_eq, hr]
  constructor
  · simp [spliceIntercept]
  · intro hm hlook
    simp only [spliceIntercept, hqe, Bool.false_eq_true, if_false, List.tail_cons] at hm hlook
    have hmem := List.mem_of_mem_eraseP hm
    have hid := hfval m hmem
    rw [List.getElem?_append] at hlook
    rw [if_pos hid] at hlook
    have hpf := hclean m hm
    rw [sameTypeAsIntercept, hlook] at hpf
    simpa using hpf

end Zed

namespace Zed

/-- Witness for C1: one catalog command, one fuzzy match on it, and an
intercept with a different action type. -/
theorem rank_intercept_first_and_unique_witness :
    (rank (fun _ _ => [exMatch]) noHits (some exIntercept) none (fun _ => none)
        [exCommand] "x").2.head? =
      some { candidate_id :=
              (rank (fun _ _ => [exMatch]) noHits (some exIntercept) none
                (fun _ => none) [exCommand] "x").1.length - 1,
             string := exIntercept.string, positions := exIntercept.positions,
             score := 0 } ∧
    exCommand.action.typeId ≠ exIntercept.action.typeId :=
  ⟨(rank_intercept_first_and_unique (fun _ _ => [exMatch]) noHits
      (some exIntercept) none (fun _ => none) [exCommand] "x" exIntercept
      exMatch exCommand (by decide) rfl (by decide) (by simp) (by simp)).1,
   (rank_intercept_first_and_unique (fun _ _ => [exMatch]) noHits
      (some exIntercept) none (fun _ => none) [exCommand] "x" exIntercept
      exMatch exCommand (by decide) rfl (by decide) (by simp) (by simp)).2
     (by decide) (by decide)⟩

end Zed

namespace Zed

/-! ## History-mutation discipline -/

theorem bump_le (h : HitCounts) (n k : String) :
    hitCount h k ≤ hitCount (bump h n) k := by
  unfold bump hitCount
  by_cases hk : k = n
  · subst hk
    simp
  · simp [hk]

/-- Shared shape lemma: `confirm` on a valid selection produces exactly the
cleared state, the bumped history, and the dispatched action. -/
theorem confirm_eq_of_valid (s : PaletteState) (h : HitCounts)
    (m : StringMatch) (cmd : Command)
    (hm : s.matchList[s.selected_ix]? = some m)
    (hc : s.commands[m.candidate_id]? = some cmd) :
    confirm s h =
      some { state := { s with matchList := [], commands := [] },
             hits := bump h cmd.name,
             dispatched := some cmd.action,
             dismissed := true } := by
  have hne : s.matchList ≠ [] := by
    intro he
    rw [he] at hm
    simp at hm
  have hisE : s.matchList.isEmpty = false := List.isEmpty_eq_false.mpr hne
  have hcne : s.commands ≠ [] := by
    intro he
    rw [he] at hc
    simp at hc
  obtain ⟨last, hlast⟩ : ∃ x, s.commands.getLast? = some x := by
    cases hL : s.commands.getLast? with
    | none => exact absurd (List.getLast?_eq_none_iff.mp hL) hcne
    | some x => exact ⟨x, rfl⟩
  simp [confirm, hisE, hm, swapRemove, hc, hlast]

theorem confirm_hits_le (s : PaletteState) (h : HitCounts) (o : ConfirmOutcome)
    (hc : confirm s h = some o) (k : String) :
    hitCount h k ≤ hitCount o.hits k := by
  unfold confirm at hc
  split at hc
  · obtain rfl := Option.some.inj hc
    exact Nat.le_refl _
  · split at hc
    · exact Option.noConfusion hc
    · split at hc
      · obtain rfl := Option.some.inj hc
        exact bump_le h _ k
      · exact Option.noConfusion hc

theorem step_hits_mono (env : Env) (s s' : SysState) (op : Op)
    (hstep : step env s op = some s') (k : String) :
    hitCount s.hits k ≤ hitCount s'.hits k := by
  cases op with
  | updateMatches qq irr =>
    obtain rfl := Option.some.inj hstep
    exact Nat.le_refl _
  | confirmSel =>
    unfold step at hstep
    cases hc : confirm s.palette s.hits with
    | none =>
      rw [hc] at hstep
      exact Option.noConfusion hstep
    | some o =>
      rw [hc] at hstep
      simp only [Option.map_some'] at hstep
      obtain rfl := Option.some.inj hstep
      exact confirm_hits_le s.palette s.hits o hc k

theorem runOps_hits_mono (env : Env) (s s' : SysState) (ops : List Op)
    (hrun : runOps env s ops = some s') (k : String) :
    hitCount s.hits k ≤ hitCount s'.hits k := by
  induction ops generalizing s with
  | nil =>
    unfold runOps at hrun
    obtain rfl := Option.some.inj hrun
    exact Nat.le_refl _
  | cons op ops ih =>
    unfold runOps at hrun
    cases hst : step env s op with
    | none =>
      rw [hst] at hrun
      exact Option.noConfusion hrun
    | some s1 =>
      rw [hst] at hrun
      simp only [Option.some_bind] at hrun
      exact Nat.le_trans (step_hits_mono env s s1 op hst k) (ih s1 hrun)

/-- C6: the global `HitCounts` is mutated only by `confirm`: applying a
completed `update_matches` task leaves it exactly unchanged, every operation
sequence leaves each key's count non-decreasing, and a confirmed selection
increments exactly the selected command's display name by one, leaving every
other key unchanged. -/
theorem hitcounts_discipline
    (env : Env) (s s' : SysState) (ops : List Op) (q : String)
    (ir : Option CommandInterceptResult) (k : String)
    (o : ConfirmOutcome) (m : StringMatch) (cmd : Command) :
    (applyUpdateMatches env s q ir).hits = s.hits ∧
    (runOps env s ops = some s' → hitCount s.hits k ≤ hitCount s'.hits k) ∧
    (confirm s.palette s.hits = some o →
      s.palette.matchList[s.palette.selected_ix]? = some m →
      s.palette.commands[m.candidate_id]? = some cmd →
      o.hits cmd.name = some (hitCount s.hits cmd.name + 1) ∧
      (k ≠ cmd.name → o.hits k = s.hits k)) := by
  refine ⟨rfl, fun hrun => runOps_hits_mono env s s' ops hrun k, ?_⟩
  intro hc hm hcmd
  rw [confirm_eq_of_valid s.palette s.hits m cmd hm hcmd] at hc
  obtain rfl := Option.some.inj hc
  constructor
  · simp [bump, hitCount]
  · intro hk
    simp [bump, hk]

/-- Witness for C6: an `update_matches` application and a one-step confirmed
run at concrete states. -/
theorem hitcounts_discipline_witness :
    (applyUpdateMatches exEnv exSys "" none).hits = exSys.hits ∧
    hitCount exSys.hits "zz" ≤ hitCount exSysDone.hits "zz" ∧
    exConfirmed.hits exCommand.name =
      some (hitCount exSys.hits exCommand.name + 1) ∧
    exConfirmed.hits "zz" = exSys.hits "zz" := by
  have T := hitcounts_discipline exEnv exSys exSysDone [Op.confirmSel] "" none
    "zz" exConfirmed exMatch exCommand
  exact ⟨T.1, T.2.1 rfl, (T.2.2 rfl rfl rfl).1, (T.2.2 rfl rfl rfl).2 (by decide)⟩

end Zed
